import Mathlib

set_option maxRecDepth 100000
set_option maxHeartbeats 4000000

/-!
Shallow embedding of the Ethereum ABI codec in `src/main.rs`.

Rust `String` / `&str` values are modelled as `List Char` (sequences of
Unicode scalar values); raw bytes as `List Nat`, each element below 256.
A Rust expression that can panic (out-of-range slice indexing) is modelled
by an `Option`, with `none` standing for the panic.  All inputs the program
ever slices are ASCII hex strings, for which Rust's byte indices and our
character indices agree.
-/

def strL (s : String) : List Char := s.data

/-- Rust `str::contains` for a literal pattern: substring occurrence test. -/
def containsSubstr (hay needle : List Char) : Bool :=
  match hay with
  | [] => needle.isEmpty
  | _ :: t => needle.isPrefixOf hay || containsSubstr t needle

/-- Rust `str::trim_start_matches("0x")`: repeatedly remove a leading `"0x"`. -/
def strip0x (s : List Char) : List Char :=
  match s with
  | c1 :: c2 :: rest => if c1 = '0' ∧ c2 = 'x' then strip0x rest else s
  | _ => s

/-- Rust `format!("{:0>64}", s)` generalised: left-fill with `c` up to width
`w`; a string already at least `w` characters long is returned unchanged. -/
def padLeftChar (c : Char) (w : Nat) (s : List Char) : List Char :=
  List.replicate (w - s.length) c ++ s

/-- The `while hex_string.len() % 64 != 0 { push('0') }` loop. -/
def padRightToWord (s : List Char) : List Char :=
  s ++ List.replicate ((64 - s.length % 64) % 64) '0'

/-- Rust slice `&s[a..b]`: `none` models the panic when the range is out of
bounds. -/
def rustSlice (s : List Char) (a b : Nat) : Option (List Char) :=
  if a ≤ b ∧ b ≤ s.length then some ((s.drop a).take (b - a)) else none

/-! ## Hex digits and hex strings -/

def hexDigit (d : Nat) : Char :=
  if d < 10 then Char.ofNat (48 + d) else Char.ofNat (87 + d)

def hexDigitVal (c : Char) : Option Nat :=
  if '0' ≤ c ∧ c ≤ '9' then some (c.toNat - 48)
  else if 'a' ≤ c ∧ c ≤ 'f' then some (c.toNat - 87)
  else if 'A' ≤ c ∧ c ≤ 'F' then some (c.toNat - 55)
  else none

/-- Rust `hex::encode`: every byte becomes two lowercase hex characters. -/
def hexEncodePairs (bs : List Nat) : List Char :=
  (bs.map (fun b => [hexDigit (b / 16), hexDigit (b % 16)])).flatten

/-- Rust `hex::decode`: fails on an odd-length input or a non-hex character. -/
def hexDecodePairs : List Char → Option (List Nat)
  | [] => some []
  | c1 :: c2 :: rest =>
    match hexDigitVal c1, hexDigitVal c2, hexDecodePairs rest with
    | some d1, some d2, some bs => some ((d1 * 16 + d2) :: bs)
    | _, _, _ => none
  | _ => none

def parseHexCore : List Char → Nat → Option Nat
  | [], acc => some acc
  | c :: rest, acc =>
    match hexDigitVal c with
    | some d => parseHexCore rest (acc * 16 + d)
    | none => none

/-- The numeric value denoted by a nonempty string of hex digits. -/
def parseHexDigits : List Char → Option Nat
  | [] => none
  | cs => parseHexCore cs 0

def stripPlus (s : List Char) : List Char :=
  match s with
  | c :: rest => if c = '+' then rest else s
  | [] => s

/-- Rust `u64::from_str_radix(s, 16)` (also `usize` on a 64-bit target):
an optional leading `'+'`, then at least one hex digit; errors (here `none`)
on an empty digit string, an invalid character, or a value above
`u64::MAX`. -/
def fromStrRadix16U64 (s : List Char) : Option Nat :=
  match parseHexDigits (stripPlus s) with
  | some v => if v < 2 ^ 64 then some v else none
  | none => none

/-- Rust `format!("{:x}", n)`: lowercase hex, structural-fuel version so the
definition reduces in the kernel. -/
def natToHexCore : Nat → Nat → List Char
  | 0, _ => []
  | _ + 1, 0 => []
  | fuel + 1, n => natToHexCore fuel (n / 16) ++ [hexDigit (n % 16)]

def natToHex (n : Nat) : List Char :=
  if n = 0 then ['0'] else natToHexCore n n

/-! ## UTF-8 (Rust `str::as_bytes` / `String::from_utf8`) -/

def utf8EncodeChar (c : Char) : List Nat :=
  let n := c.toNat
  if n < 128 then [n]
  else if n < 2048 then [192 + n / 64, 128 + n % 64]
  else if n < 65536 then [224 + n / 4096, 128 + n / 64 % 64, 128 + n % 64]
  else [240 + n / 262144, 128 + n / 4096 % 64, 128 + n / 64 % 64, 128 + n % 64]

def utf8Bytes (s : List Char) : List Nat := (s.map utf8EncodeChar).flatten

def splitOne : List Nat → Option (Nat × List Nat)
  | b :: r => some (b, r)
  | [] => none

def splitTwo : List Nat → Option (Nat × Nat × List Nat)
  | b1 :: b2 :: r => some (b1, b2, r)
  | _ => none

def splitThree : List Nat → Option (Nat × Nat × Nat × List Nat)
  | b1 :: b2 :: b3 :: r => some (b1, b2, b3, r)
  | _ => none

/-- Strict UTF-8 decoding (rejecting overlong forms, surrogates, and values
above `0x10FFFF`), exactly as Rust's `String::from_utf8` validates.  The fuel
argument only drives the recursion; `bs.length` is always enough. -/
def utf8DecodeCore : Nat → List Nat → Option (List Char)
  | _, [] => some []
  | 0, _ :: _ => none
  | fuel + 1, b :: rest =>
    if b < 128 then
      (utf8DecodeCore fuel rest).map (fun cs => Char.ofNat b :: cs)
    else if b < 194 then none
    else if b < 224 then
      match splitOne rest with
      | some (b1, rest1) =>
        if 128 ≤ b1 ∧ b1 < 192 then
          (utf8DecodeCore fuel rest1).map
            (fun cs => Char.ofNat ((b - 192) * 64 + (b1 - 128)) :: cs)
        else none
      | none => none
    else if b < 240 then
      match splitTwo rest with
      | some (b1, b2, rest2) =>
        if (if b = 224 then 160 ≤ b1 ∧ b1 < 192
            else if b = 237 then 128 ≤ b1 ∧ b1 < 160
            else 128 ≤ b1 ∧ b1 < 192) ∧ 128 ≤ b2 ∧ b2 < 192 then
          (utf8DecodeCore fuel rest2).map
            (fun cs => Char.ofNat ((b - 224) * 4096 + (b1 - 128) * 64 + (b2 - 128)) :: cs)
        else none
      | none => none
    else if b < 245 then
      match splitThree rest with
      | some (b1, b2, b3, rest3) =>
        if (if b = 240 then 144 ≤ b1 ∧ b1 < 192
            else if b = 244 then 128 ≤ b1 ∧ b1 < 144
            else 128 ≤ b1 ∧ b1 < 192) ∧ 128 ≤ b2 ∧ b2 < 192 ∧ 128 ≤ b3 ∧ b3 < 192 then
          (utf8DecodeCore fuel rest3).map
            (fun cs => Char.ofNat
              ((b - 240) * 262144 + (b1 - 128) * 4096 + (b2 - 128) * 64 + (b3 - 128)) :: cs)
        else none
      | none => none
    else none

def utf8Decode (bs : List Nat) : Option (List Char) :=
  utf8DecodeCore bs.length bs

/-! ## Keccak-256 (the `keccak_hash::keccak` dependency)

Modelled from the spec: §4.1 names the selector hash as Keccak-256 of the
UTF-8 bytes of the signature; the hash itself comes from the external
`keccak_hash` crate, whose source is not part of this repository.  This is
the original (pre-SHA-3) Keccak with rate 136 and multi-rate padding
`0x01 … 0x80`.  Lanes are 64-bit words held as `Nat` values below `2 ^ 64`;
the state is a list of 25 lanes indexed by `x + 5 * y`. -/

def rol64 (a n : Nat) : Nat :=
  ((a <<< n) + (a >>> (64 - n))) % (2 ^ 64)

def keccakRotOffsets : List Nat :=
  ([[0, 1, 62, 28, 27], [36, 44, 6, 55, 20], [3, 10, 43, 25, 39],
    [41, 45, 15, 21, 8], [18, 2, 61, 56, 14]]).flatten

def keccakRC : List Nat :=
  ([[0x0000000000000001, 0x0000000000008082, 0x800000000000808a, 0x8000000080008000],
    [0x000000000000808b, 0x0000000080000001, 0x8000000080008081, 0x8000000000008009],
    [0x000000000000008a, 0x0000000000000088, 0x0000000080008009, 0x000000008000000a],
    [0x000000008000808b, 0x800000000000008b, 0x8000000000008089, 0x8000000000008003],
    [0x8000000000008002, 0x8000000000000080, 0x000000000000800a, 0x800000008000000a],
    [0x8000000080008081, 0x8000000000008080, 0x0000000080000001, 0x8000000080008008]]).flatten

def keccakRound (s : List Nat) (rc : Nat) : List Nat :=
  let A : Nat → Nat → Nat := fun x y => s.getD (x + 5 * y) 0
  let C : Nat → Nat := fun x => A x 0 ^^^ A x 1 ^^^ A x 2 ^^^ A x 3 ^^^ A x 4
  let D : Nat → Nat := fun x => C ((x + 4) % 5) ^^^ rol64 (C ((x + 1) % 5)) 1
  let A1 : Nat → Nat → Nat := fun x y => A x y ^^^ D x
  let B : Nat → Nat → Nat := fun x y =>
    rol64 (A1 ((x + 3 * y) % 5) x) (keccakRotOffsets.getD ((x + 3 * y) % 5 + 5 * x) 0)
  (List.range 25).map (fun i =>
    let x := i % 5
    let y := i / 5
    (B x y ^^^ ((B ((x + 1) % 5) y ^^^ (2 ^ 64 - 1)) &&& B ((x + 2) % 5) y)) ^^^
      (if i = 0 then rc else 0))

def keccakF (s : List Nat) : List Nat :=
  keccakRC.foldl keccakRound s

def bytesToLane (bs : List Nat) : Nat :=
  bs.foldr (fun b acc => b + 256 * acc) 0

def laneToBytes (n : Nat) : List Nat :=
  (List.range 8).map (fun k => (n >>> (8 * k)) % 256)

def keccakAbsorbBlock (st : List Nat) (block : List Nat) : List Nat :=
  keccakF ((List.range 25).map (fun i =>
    st.getD i 0 ^^^ (if i < 17 then bytesToLane ((block.drop (8 * i)).take 8) else 0)))

def keccakAbsorb : Nat → List Nat → List Nat → List Nat
  | 0, st, _ => st
  | _ + 1, st, [] => st
  | fuel + 1, st, msg =>
    keccakAbsorb fuel (keccakAbsorbBlock st (msg.take 136)) (msg.drop 136)

def keccakPad (msg : List Nat) : List Nat :=
  let m := 136 - msg.length % 136
  if m = 1 then msg ++ [0x81]
  else msg ++ [0x01] ++ List.replicate (m - 2) 0 ++ [0x80]

def keccak256 (msg : List Nat) : List Nat :=
  let padded := keccakPad msg
  let st := keccakAbsorb padded.length (List.replicate 25 0) padded
  ((List.range 4).map (fun i => laneToBytes (st.getD i 0))).flatten

/-- The 8 lowercase hex characters of the first 4 bytes of the Keccak-256
hash: `hex::encode(&keccak(sig)[0..4])` in `encode_function_call`. -/
def selectorHex (msg : List Nat) : List Char :=
  hexEncodePairs ((keccak256 msg).take 4)

/-! ## The result decoders (`decode_uint`, `decode_address`, `decode_string`) -/

/-- The source's `fn decode_uint(hex_str: &str) -> u64`. -/
def decode_uint (s : List Char) : Nat :=
  (fromStrRadix16U64 (strip0x s)).getD 0

/-- The source's `fn decode_address(hex_str: &str) -> String`; `none` models
the panic of `&hex_str[24..64]` on a short input. -/
def decode_address (s : List Char) : Option (List Char) :=
  (rustSlice (strip0x s) 24 64).map (fun t => strL "0x" ++ t)

/-- The part of `decode_string` after the early `"Invalid data"` return,
applied to the already-stripped input. -/
def decodeStringBody (hex : List Char) : Option (List Char) :=
  match rustSlice hex 0 64 with
  | none => none
  | some w =>
    let offset := (fromStrRadix16U64 w).getD 0
    match rustSlice hex (offset * 2) (offset * 2 + 64) with
    | none => none
    | some lengthHex =>
      let length := (fromStrRadix16U64 lengthHex).getD 0
      match rustSlice hex (offset * 2 + 64) (offset * 2 + 64 + length * 2) with
      | none => none
      | some strData =>
        match utf8Decode ((hexDecodePairs strData).getD []) with
        | some cs => some cs
        | none => some (strL "Invalid UTF-8")

/-- The source's `fn decode_string(hex_str: &str) -> String`.  Note the
length guard runs on the raw input, before the `"0x"` prefix is stripped. -/
def decode_string (s : List Char) : Option (List Char) :=
  if s.length < 130 then some (strL "Invalid data")
  else decodeStringBody (strip0x s)

/-! ## The argument encoder (`encode_function_call`) -/

/-- One static argument word of the no-`"string"` branch: a `"0x"`-led
argument contributes its remaining characters verbatim, any other argument is
left-zero-padded to 64 characters. -/
def staticWord (p : List Char) : List Char :=
  if (strL "0x").isPrefixOf p then p.drop 2 else padLeftChar '0' 64 p

/-- The `encoded_params` string built by `encode_function_call`; `none`
models the `params[i]` index panic. -/
def encodedParams (sig : List Char) (params : List (List Char)) :
    Option (List Char) :=
  if containsSubstr sig (strL "string") then
    if containsSubstr sig (strL ",uint256,uint256") then
      match params with
      | subject :: offset :: limit :: _ =>
        some (padLeftChar '0' 64 (strL "60") ++
              padLeftChar '0' 64 offset ++
              padLeftChar '0' 64 limit ++
              padLeftChar '0' 64 (natToHex (utf8Bytes subject).length) ++
              padRightToWord (hexEncodePairs (utf8Bytes subject)))
      | _ => none
    else
      match params with
      | subject :: _ =>
        some (padLeftChar '0' 64 (strL "20") ++
              padLeftChar '0' 64 (natToHex (utf8Bytes subject).length) ++
              padRightToWord (hexEncodePairs (utf8Bytes subject)))
      | [] => none
  else
    some ((params.map staticWord).flatten)

/-- The source's `fn encode_function_call(method_signature: &str, params:
Vec<String>) -> String`. -/
def encode_function_call (sig : List Char) (params : List (List Char)) :
    Option (List Char) :=
  (encodedParams sig params).map
    (fun ps => strL "0x" ++ selectorHex (utf8Bytes sig) ++ ps)

/-! ## `decode_students_response` and its `ethabi::decode` collaborator -/

/-- Modelled from the spec: the generic ABI tuple/array decoder is supplied
by the external `ethabi` crate, whose source is not part of this repository;
§4.4 describes it as the standard ABI array-of-dynamic-type algorithm with a
structured error on any nonconforming layout.  This helper reads a 32-byte
slice of `data` starting at byte `off` (`peek_32_bytes`); it errors
(`none`) when fewer than 32 bytes remain. -/
def peek32 (data : List Nat) (off : Nat) : Option (List Nat) :=
  if off + 32 ≤ data.length then some ((data.drop off).take 32) else none

/-- Modelled from the spec (see `peek32`): `len` bytes of `data` starting at
byte `off`; errors when out of range. -/
def takeBytes (data : List Nat) (off len : Nat) : Option (List Nat) :=
  if off + len ≤ data.length then some ((data.drop off).take len) else none

/-- Modelled from the spec (see `peek32`): a 32-byte big-endian word read as
a machine offset/length; the 28 high bytes must be zero. -/
def asUsize (w : List Nat) : Option Nat :=
  if (w.take 28).all (fun b => b = 0) then
    some ((w.drop 28).foldl (fun a b => a * 256 + b) 0)
  else none

/-- Modelled from the spec (see `peek32`): decode `n` dynamic strings from
`tail`, reading the `i`-th offset word at byte `32 * i` after `off`; each
offset points (relative to `tail`) to a length word followed by the UTF-8
bytes. -/
def decodeStringsFrom : Nat → List Nat → Nat → Option (List (List Char))
  | 0, _, _ => some []
  | n + 1, tail, off =>
    match peek32 tail off with
    | none => none
    | some ow =>
      match asUsize ow with
      | none => none
      | some sOff =>
        match peek32 tail sOff with
        | none => none
        | some lw =>
          match asUsize lw with
          | none => none
          | some slen =>
            match takeBytes tail (sOff + 32) slen with
            | none => none
            | some sb =>
              match utf8Decode sb with
              | none => none
              | some cs =>
                (decodeStringsFrom n tail (off + 32)).map (fun rest => cs :: rest)

/-- Modelled from the spec (see `peek32`):
`ethabi::decode(&[ParamType::Array(Box::new(ParamType::String))], bytes)`
restricted to its only use.  The head word is a byte offset to the array,
which starts with a 32-byte count followed by per-element offset words
relative to the array's own data start. -/
def abiDecodeStringArray (bytes : List Nat) : Option (List (List Char)) :=
  match peek32 bytes 0 with
  | none => none
  | some w0 =>
    match asUsize w0 with
    | none => none
    | some arrOff =>
      match peek32 bytes arrOff with
      | none => none
      | some lenW =>
        match asUsize lenW with
        | none => none
        | some n => decodeStringsFrom n (bytes.drop (arrOff + 32)) 0

/-- Error taxonomy of `decode_students_response`: a hex-decoding failure, an
ABI-layout failure, or the `"Unexpected response format"` fallback (never hit
for this parameter type). -/
inductive StudentsDecodeError where
  | hexError : StudentsDecodeError
  | abiError : StudentsDecodeError
  deriving DecidableEq, Repr

/-- The source's `fn decode_students_response(response: &str) ->
Result<Vec<String>, _>`: strips a single optional `"0x"`, hex-decodes, then
runs the generic ABI decoder for `string[]`. -/
def decode_students_response (response : List Char) :
    Except StudentsDecodeError (List (List Char)) :=
  let data := if (strL "0x").isPrefixOf response then response.drop 2 else response
  match hexDecodePairs data with
  | none => Except.error StudentsDecodeError.hexError
  | some bytes =>
    match abiDecodeStringArray bytes with
    | none => Except.error StudentsDecodeError.abiError
    | some strings => Except.ok strings

/-! ## Canonical ABI `string[]` encoding

Modelled from the spec: §4.4 describes `decode_string_array` as decoding
"an ABI-encoded `string[]`" laid out per the standard head/tail algorithm;
the encoder below builds exactly that well-formed layout so that the claimed
decode behaviour can be stated for every sequence of strings. -/

/-- Modelled from the spec (see the section comment): the `k` big-endian
bytes of `n` (its low `8 * k` bits). -/
def wordBEAux : Nat → Nat → List Nat
  | 0, _ => []
  | k + 1, n => wordBEAux k (n / 256) ++ [n % 256]

/-- Modelled from the spec (see the section comment): one 32-byte big-endian
ABI word. -/
def wordBE (n : Nat) : List Nat := wordBEAux 32 n

/-- Modelled from the spec (see the section comment): zero-fill a byte
string on the right to a 32-byte boundary. -/
def padRightBytes (bs : List Nat) : List Nat :=
  bs ++ List.replicate ((32 - bs.length % 32) % 32) 0

/-- Modelled from the spec (see the section comment): the tail entry of one
dynamic string, a length word then the padded bytes. -/
def abiTailItem (b : List Nat) : List Nat := wordBE b.length ++ padRightBytes b

/-- Modelled from the spec (see the section comment): the concatenated tail
entries of all strings, in order. -/
def abiStringsTail : List (List Nat) → List Nat
  | [] => []
  | b :: t => abiTailItem b ++ abiStringsTail t

/-- Modelled from the spec (see the section comment): the per-element offset
words; the `i`-th holds the byte offset of the `i`-th tail entry relative to
the array's own data start. -/
def abiOffsetWords (base : Nat) : List (List Nat) → List Nat
  | [] => []
  | b :: t => wordBE base ++ abiOffsetWords (base + (abiTailItem b).length) t

/-- Modelled from the spec (see the section comment): a well-formed ABI
encoding of a `string[]` return value — the offset of the array (always 32),
its element count, the offset words, then the tails. -/
def abiEncodeStringArray (L : List (List Nat)) : List Nat :=
  wordBE 32 ++ wordBE L.length ++ abiOffsetWords (32 * L.length) L ++ abiStringsTail L

/-! ## Supporting lemmas -/

theorem length_padLeftChar (c : Char) (w : Nat) (s : List Char) :
    (padLeftChar c w s).length = max w s.length := by
  simp [padLeftChar]
  omega

theorem length_padLeftChar_of_le {w : Nat} {s : List Char} (c : Char)
    (h : s.length ≤ w) : (padLeftChar c w s).length = w := by
  rw [length_padLeftChar]
  omega

theorem hexEncodePairs_cons (b : Nat) (t : List Nat) :
    hexEncodePairs (b :: t) =
      hexDigit (b / 16) :: hexDigit (b % 16) :: hexEncodePairs t := rfl

theorem length_hexEncodePairs (bs : List Nat) :
    (hexEncodePairs bs).length = 2 * bs.length := by
  induction bs with
  | nil => rfl
  | cons b t ih => rw [hexEncodePairs_cons]; simp [ih]; omega

theorem hexDigitVal_hexDigit : ∀ d : Nat, d < 16 → hexDigitVal (hexDigit d) = some d := by
  decide

theorem hexDecode_hexEncode (bs : List Nat) (h : ∀ b ∈ bs, b < 256) :
    hexDecodePairs (hexEncodePairs bs) = some bs := by
  induction bs with
  | nil => rfl
  | cons b t ih =>
    have hb : b < 256 := h b (List.mem_cons_self b t)
    have ht : ∀ x ∈ t, x < 256 := fun x hx => h x (List.mem_cons_of_mem b hx)
    rw [hexEncodePairs_cons]
    rw [hexDecodePairs]
    rw [hexDigitVal_hexDigit (b / 16) (by omega), hexDigitVal_hexDigit (b % 16) (by omega),
      ih ht]
    have hb' : b / 16 * 16 + b % 16 = b := by omega
    simp [hb']

theorem parseHexCore_append (xs ys : List Char) (a : Nat) :
    parseHexCore (xs ++ ys) a =
      match parseHexCore xs a with
      | some v => parseHexCore ys v
      | none => none := by
  induction xs generalizing a with
  | nil => rfl
  | cons c rest ih =>
    rw [List.cons_append, parseHexCore, parseHexCore]
    cases hexDigitVal c with
    | none => rfl
    | some d => exact ih (a * 16 + d)

theorem parseHexCore_replicate_zero (k : Nat) (cs : List Char) :
    parseHexCore (List.replicate k '0' ++ cs) 0 = parseHexCore cs 0 := by
  induction k with
  | zero => rfl
  | succ n ih =>
    rw [List.replicate_succ, List.cons_append, parseHexCore]
    have h0 : hexDigitVal '0' = some 0 := by decide
    rw [h0]
    simpa using ih

theorem natToHexCore_zero (fuel : Nat) : natToHexCore fuel 0 = [] := by
  cases fuel <;> rfl

theorem natToHexCore_succ (fuel m : Nat) :
    natToHexCore (fuel + 1) (m + 1) =
      natToHexCore fuel ((m + 1) / 16) ++ [hexDigit ((m + 1) % 16)] := rfl

theorem parseHexCore_natToHexCore :
    ∀ fuel n a, n ≤ fuel →
      parseHexCore (natToHexCore fuel n) a =
        some (a * 16 ^ (natToHexCore fuel n).length + n) := by
  intro fuel
  induction fuel with
  | zero =>
    intro n a hn
    have : n = 0 := by omega
    subst this
    simp [natToHexCore, parseHexCore]
  | succ f ih =>
    intro n a hn
    cases n with
    | zero => simp [natToHexCore_zero, parseHexCore]
    | succ m =>
      rw [natToHexCore_succ]
      rw [parseHexCore_append]
      have hrec : (m + 1) / 16 ≤ f := by omega
      rw [ih ((m + 1) / 16) a hrec]
      simp only [parseHexCore, hexDigitVal_hexDigit ((m + 1) % 16) (by omega)]
      simp only [List.length_append, List.length_cons, List.length_nil,
        Option.some.injEq]
      rw [pow_succ, Nat.add_mul, Nat.mul_assoc]
      omega

theorem natToHexCore_length :
    ∀ fuel n k, n ≤ fuel → n < 16 ^ k → (natToHexCore fuel n).length ≤ k := by
  intro fuel
  induction fuel with
  | zero =>
    intro n k hn _
    have : n = 0 := by omega
    subst this
    simp [natToHexCore]
  | succ f ih =>
    intro n k hn hk
    cases n with
    | zero => simp [natToHexCore_zero]
    | succ m =>
      rw [natToHexCore_succ]
      have hkpos : 0 < k := by
        by_contra h
        have hk0 : k = 0 := by omega
        rw [hk0, pow_zero] at hk
        omega
      have h16 : (16 : Nat) ^ k = 16 ^ (k - 1) * 16 := by
        conv_lhs => rw [show k = (k - 1) + 1 by omega]
        rw [pow_succ]
      have hdiv : (m + 1) / 16 < 16 ^ (k - 1) := by
        rw [Nat.div_lt_iff_lt_mul (by omega)]
        omega
      have := ih ((m + 1) / 16) (k - 1) (by omega) hdiv
      simp only [List.length_append, List.length_cons, List.length_nil]
      omega

theorem natToHex_ne_nil (n : Nat) : natToHex n ≠ [] := by
  unfold natToHex
  split
  · simp
  · rename_i hn
    cases n with
    | zero => exact absurd rfl hn
    | succ m =>
      rw [natToHexCore_succ]
      simp

theorem parseHexCore_natToHex (n : Nat) : parseHexCore (natToHex n) 0 = some n := by
  unfold natToHex
  split
  · rename_i hn
    subst hn
    decide
  · rw [parseHexCore_natToHexCore n n 0 (Nat.le_refl n)]
    simp

theorem natToHex_length_le (n k : Nat) (h : n < 16 ^ k) (hk : 0 < k) :
    (natToHex n).length ≤ k := by
  unfold natToHex
  split
  · simpa using hk
  · exact natToHexCore_length n n k (Nat.le_refl n) h

theorem natToHex_length_le_sixteen (n : Nat) (h : n < 2 ^ 64) :
    (natToHex n).length ≤ 16 := by
  have h16 : (2 : Nat) ^ 64 = 16 ^ 16 := by norm_num
  exact natToHex_length_le n 16 (h16 ▸ h) (by omega)

theorem stripPlus_cons_of_ne {c : Char} (r : List Char) (h : ¬c = '+') :
    stripPlus (c :: r) = c :: r := by
  simp [stripPlus, h]

theorem strip0x_cons_cons {c1 c2 : Char} (t : List Char) (h : ¬(c1 = '0' ∧ c2 = 'x')) :
    strip0x (c1 :: c2 :: t) = c1 :: c2 :: t := by
  rw [strip0x]
  simp [h]

theorem strip0x_0x (t : List Char) : strip0x ('0' :: 'x' :: t) = strip0x t := by
  rw [strip0x]
  simp

theorem fromStrRadix_padLeft_natToHex (n : Nat) (h : n < 2 ^ 64) :
    fromStrRadix16U64 (padLeftChar '0' 64 (natToHex n)) = some n := by
  have hlen : (natToHex n).length ≤ 16 := natToHex_length_le_sixteen n h
  have hk : 64 - (natToHex n).length = (64 - (natToHex n).length - 1) + 1 := by omega
  unfold padLeftChar
  rw [hk, List.replicate_succ, List.cons_append]
  rw [fromStrRadix16U64, stripPlus_cons_of_ne _ (by decide)]
  have hrep : ('0' :: (List.replicate (64 - (natToHex n).length - 1) '0' ++ natToHex n)) =
      List.replicate ((64 - (natToHex n).length - 1) + 1) '0' ++ natToHex n := by
    rw [List.replicate_succ, List.cons_append]
  rw [parseHexDigits, hrep, parseHexCore_replicate_zero, parseHexCore_natToHex]
  · simp
    omega
  · simp

theorem utf8Bytes_cons (c : Char) (s : List Char) :
    utf8Bytes (c :: s) = utf8EncodeChar c ++ utf8Bytes s := by
  simp [utf8Bytes]

theorem char_toNat_valid (c : Char) :
    c.toNat < 55296 ∨ (57343 < c.toNat ∧ c.toNat < 1114112) := c.valid

theorem utf8EncodeChar_lt_256 (c : Char) : ∀ b ∈ utf8EncodeChar c, b < 256 := by
  have hv := char_toNat_valid c
  intro b hb
  simp only [utf8EncodeChar] at hb
  split at hb
  · simp at hb
    omega
  · split at hb
    · simp at hb
      rcases hb with h | h <;> omega
    · split at hb
      · simp at hb
        rcases hb with h | h | h <;> omega
      · simp at hb
        rcases hb with h | h | h | h <;> omega

theorem utf8Bytes_lt_256 (s : List Char) : ∀ b ∈ utf8Bytes s, b < 256 := by
  induction s with
  | nil => intro b hb; simp [utf8Bytes] at hb
  | cons c t ih =>
    intro b hb
    rw [utf8Bytes_cons] at hb
    rcases List.mem_append.mp hb with h | h
    · exact utf8EncodeChar_lt_256 c b h
    · exact ih b h

theorem utf8DecodeCore_utf8Bytes :
    ∀ (s : List Char) (fuel : Nat), (utf8Bytes s).length ≤ fuel →
      utf8DecodeCore fuel (utf8Bytes s) = some s := by
  intro s
  induction s with
  | nil =>
    intro fuel _
    cases fuel <;> rfl
  | cons c t ih =>
    intro fuel hfuel
    rw [utf8Bytes_cons] at hfuel ⊢
    have hv := char_toNat_valid c
    by_cases h1 : c.toNat < 128
    · have henc : utf8EncodeChar c = [c.toNat] := by
        simp only [utf8EncodeChar]
        rw [if_pos h1]
      rw [henc] at hfuel ⊢
      simp only [List.length_append, List.length_cons, List.length_nil] at hfuel
      obtain ⟨f, rfl⟩ : ∃ f, fuel = f + 1 := ⟨fuel - 1, by omega⟩
      rw [List.singleton_append, utf8DecodeCore, if_pos h1, ih f (by omega)]
      simp
    · by_cases h2 : c.toNat < 2048
      · have henc : utf8EncodeChar c = [192 + c.toNat / 64, 128 + c.toNat % 64] := by
          simp only [utf8EncodeChar]
          rw [if_neg h1, if_pos h2]
        rw [henc] at hfuel ⊢
        simp only [List.length_append, List.length_cons, List.length_nil] at hfuel
        obtain ⟨f, rfl⟩ : ∃ f, fuel = f + 1 := ⟨fuel - 1, by omega⟩
        simp only [List.cons_append, List.nil_append]
        rw [utf8DecodeCore]
        rw [if_neg (by omega)]
        rw [if_neg (by omega), if_pos (by omega)]
        simp only [splitOne]
        rw [if_pos (by constructor <;> omega)]
        rw [ih f (by omega)]
        have harith : (192 + c.toNat / 64 - 192) * 64 + (128 + c.toNat % 64 - 128) = c.toNat := by
          omega
        rw [harith]
        simp
      · by_cases h3 : c.toNat < 65536
        · have henc : utf8EncodeChar c =
              [224 + c.toNat / 4096, 128 + c.toNat / 64 % 64, 128 + c.toNat % 64] := by
            simp only [utf8EncodeChar]
            rw [if_neg h1, if_neg h2, if_pos h3]
          rw [henc] at hfuel ⊢
          simp only [List.length_append, List.length_cons, List.length_nil] at hfuel
          obtain ⟨f, rfl⟩ : ∃ f, fuel = f + 1 := ⟨fuel - 1, by omega⟩
          simp only [List.cons_append, List.nil_append]
          rw [utf8DecodeCore]
          rw [if_neg (by omega), if_neg (by omega)]
          rw [if_neg (by omega)]
          rw [if_pos (by omega)]
          simp only [splitTwo]
          rw [if_pos ?hcond3]
          case hcond3 =>
            refine ⟨?_, by omega, by omega⟩
            by_cases hb224 : 224 + c.toNat / 4096 = 224
            · rw [if_pos hb224]
              constructor <;> omega
            · rw [if_neg hb224]
              by_cases hb237 : 224 + c.toNat / 4096 = 237
              · rw [if_pos hb237]
                constructor <;> omega
              · rw [if_neg hb237]
                constructor <;> omega
          rw [ih f (by omega)]
          have harith : (224 + c.toNat / 4096 - 224) * 4096 +
              (128 + c.toNat / 64 % 64 - 128) * 64 + (128 + c.toNat % 64 - 128) = c.toNat := by
            omega
          rw [harith]
          simp
        · have henc : utf8EncodeChar c =
              [240 + c.toNat / 262144, 128 + c.toNat / 4096 % 64,
               128 + c.toNat / 64 % 64, 128 + c.toNat % 64] := by
            simp only [utf8EncodeChar]
            rw [if_neg h1, if_neg h2, if_neg h3]
          have hub : c.toNat < 1114112 := by omega
          rw [henc] at hfuel ⊢
          simp only [List.length_append, List.length_cons, List.length_nil] at hfuel
          obtain ⟨f, rfl⟩ : ∃ f, fuel = f + 1 := ⟨fuel - 1, by omega⟩
          simp only [List.cons_append, List.nil_append]
          rw [utf8DecodeCore]
          rw [if_neg (by omega), if_neg (by omega)]
          rw [if_neg (by omega), if_neg (by omega)]
          rw [if_pos (by omega)]
          simp only [splitThree]
          rw [if_pos ?hcond4]
          case hcond4 =>
            refine ⟨?_, by omega, by omega, by omega, by omega⟩
            by_cases hb240 : 240 + c.toNat / 262144 = 240
            · rw [if_pos hb240]
              constructor <;> omega
            · rw [if_neg hb240]
              by_cases hb244 : 240 + c.toNat / 262144 = 244
              · rw [if_pos hb244]
                constructor <;> omega
              · rw [if_neg hb244]
                constructor <;> omega
          rw [ih f (by omega)]
          have harith : (240 + c.toNat / 262144 - 240) * 262144 +
              (128 + c.toNat / 4096 % 64 - 128) * 4096 +
              (128 + c.toNat / 64 % 64 - 128) * 64 + (128 + c.toNat % 64 - 128) = c.toNat := by
            omega
          rw [harith]
          simp

theorem utf8Decode_utf8Bytes (s : List Char) : utf8Decode (utf8Bytes s) = some s :=
  utf8DecodeCore_utf8Bytes s (utf8Bytes s).length (Nat.le_refl _)

theorem take_prefix_all {α : Type} (A B : List α) : (A ++ B).take A.length = A := by
  rw [List.take_append_of_le_length (Nat.le_refl _), List.take_length]

theorem drop_prefix_all {α : Type} (A B : List α) : (A ++ B).drop A.length = B := by
  rw [List.drop_append_of_le_length (Nat.le_refl _), List.drop_length, List.nil_append]

/-- Decoding the parameter block built by the single-dynamic-string branch
recovers the original string: the head word parses as offset 32, the second
word as the byte length, and the right padding is never read. -/
theorem decodeStringBody_roundtrip (s : List Char)
    (h3 : (utf8Bytes s).length < 2 ^ 64) :
    decodeStringBody
      (padLeftChar '0' 64 (strL "20") ++
       padLeftChar '0' 64 (natToHex (utf8Bytes s).length) ++
       padRightToWord (hexEncodePairs (utf8Bytes s))) = some s := by
  have hw0 : (padLeftChar '0' 64 (strL "20")).length = 64 := by decide
  have hnat : (natToHex (utf8Bytes s).length).length ≤ 64 := by
    have h16 := natToHex_length_le_sixteen _ h3
    omega
  have hwL : (padLeftChar '0' 64 (natToHex (utf8Bytes s).length)).length = 64 :=
    length_padLeftChar_of_le '0' hnat
  have hBl : (hexEncodePairs (utf8Bytes s)).length = 2 * (utf8Bytes s).length :=
    length_hexEncodePairs _
  have hDge : 2 * (utf8Bytes s).length ≤
      (padRightToWord (hexEncodePairs (utf8Bytes s))).length := by
    simp only [padRightToWord, List.length_append, List.length_replicate]
    omega
  have hPlen : (padLeftChar '0' 64 (strL "20") ++
       padLeftChar '0' 64 (natToHex (utf8Bytes s).length) ++
       padRightToWord (hexEncodePairs (utf8Bytes s))).length =
      128 + (padRightToWord (hexEncodePairs (utf8Bytes s))).length := by
    simp only [List.length_append, hw0, hwL]
  have hd64 : (padLeftChar '0' 64 (strL "20") ++
       padLeftChar '0' 64 (natToHex (utf8Bytes s).length) ++
       padRightToWord (hexEncodePairs (utf8Bytes s))).drop 64 =
      padLeftChar '0' 64 (natToHex (utf8Bytes s).length) ++
       padRightToWord (hexEncodePairs (utf8Bytes s)) := by
    rw [List.append_assoc]
    have h := drop_prefix_all (padLeftChar '0' 64 (strL "20"))
      (padLeftChar '0' 64 (natToHex (utf8Bytes s).length) ++
       padRightToWord (hexEncodePairs (utf8Bytes s)))
    rw [hw0] at h
    exact h
  have hd128 : (padLeftChar '0' 64 (strL "20") ++
       padLeftChar '0' 64 (natToHex (utf8Bytes s).length) ++
       padRightToWord (hexEncodePairs (utf8Bytes s))).drop 128 =
      padRightToWord (hexEncodePairs (utf8Bytes s)) := by
    have h := drop_prefix_all (padLeftChar '0' 64 (strL "20") ++
      padLeftChar '0' 64 (natToHex (utf8Bytes s).length))
      (padRightToWord (hexEncodePairs (utf8Bytes s)))
    rw [List.length_append, hw0, hwL] at h
    exact h
  have hs1 : rustSlice (padLeftChar '0' 64 (strL "20") ++
       padLeftChar '0' 64 (natToHex (utf8Bytes s).length) ++
       padRightToWord (hexEncodePairs (utf8Bytes s))) 0 64 =
      some (padLeftChar '0' 64 (strL "20")) := by
    unfold rustSlice
    rw [if_pos (by constructor <;> omega)]
    rw [List.drop_zero]
    have t := take_prefix_all (padLeftChar '0' 64 (strL "20"))
      (padLeftChar '0' 64 (natToHex (utf8Bytes s).length) ++
       padRightToWord (hexEncodePairs (utf8Bytes s)))
    rw [hw0] at t
    rw [List.append_assoc]
    rw [show (64 : Nat) - 0 = 64 from rfl]
    rw [t]
  have hv1 : fromStrRadix16U64 (padLeftChar '0' 64 (strL "20")) = some 32 := by decide
  have hs2 : rustSlice (padLeftChar '0' 64 (strL "20") ++
       padLeftChar '0' 64 (natToHex (utf8Bytes s).length) ++
       padRightToWord (hexEncodePairs (utf8Bytes s))) (32 * 2) (32 * 2 + 64) =
      some (padLeftChar '0' 64 (natToHex (utf8Bytes s).length)) := by
    unfold rustSlice
    rw [if_pos (by constructor <;> omega)]
    rw [show (32 : Nat) * 2 + 64 - 32 * 2 = 64 from rfl]
    rw [show (32 : Nat) * 2 = 64 from rfl]
    rw [hd64]
    have t := take_prefix_all (padLeftChar '0' 64 (natToHex (utf8Bytes s).length))
      (padRightToWord (hexEncodePairs (utf8Bytes s)))
    rw [hwL] at t
    rw [t]
  have hv2 : fromStrRadix16U64 (padLeftChar '0' 64 (natToHex (utf8Bytes s).length)) =
      some (utf8Bytes s).length := fromStrRadix_padLeft_natToHex _ h3
  have hs3 : rustSlice (padLeftChar '0' 64 (strL "20") ++
       padLeftChar '0' 64 (natToHex (utf8Bytes s).length) ++
       padRightToWord (hexEncodePairs (utf8Bytes s)))
      (32 * 2 + 64) (32 * 2 + 64 + (utf8Bytes s).length * 2) =
      some (hexEncodePairs (utf8Bytes s)) := by
    unfold rustSlice
    rw [if_pos (by constructor <;> omega)]
    rw [show (32 : Nat) * 2 + 64 = 128 from rfl]
    rw [show 128 + (utf8Bytes s).length * 2 - 128 = (utf8Bytes s).length * 2 from by omega]
    rw [hd128]
    unfold padRightToWord
    rw [show (utf8Bytes s).length * 2 = (hexEncodePairs (utf8Bytes s)).length from by omega]
    rw [take_prefix_all]
  have hdec : hexDecodePairs (hexEncodePairs (utf8Bytes s)) = some (utf8Bytes s) :=
    hexDecode_hexEncode _ (utf8Bytes_lt_256 s)
  have hutf : utf8Decode (utf8Bytes s) = some s := utf8Decode_utf8Bytes s
  simp only [decodeStringBody, hs1, hv1, Option.getD_some, hs2, hv2, hs3, hdec, hutf]

/-! ## Claim theorems -/

/-- C2 counterexample: an unprefixed input of exactly 128 hex characters has
a stripped form of 128 characters, yet `decode_string` returns the sentinel
`"Invalid data"` instead of proceeding to decode — the guard runs on the raw
length, refuting the claimed stripped-length condition. -/
theorem claim_C2_counterexample :
    (strip0x (List.replicate 128 '0')).length = 128 ∧
    decode_string (List.replicate 128 '0') = some (strL "Invalid data") := by
  constructor <;> decide

/-- C2 (amended): `decode_string` returns the early sentinel `"Invalid
data"` exactly when the raw input, before `"0x"` stripping, is shorter than
130 characters (for `"0x"`-prefixed inputs this is a stripped length below
128); any longer input proceeds to the offset/length decode of the stripped
form — witnessed by a 130-character prefixed input that decodes.  -/
theorem claim_C2_amended :
    (∀ s : List Char, decode_string s =
      if s.length < 130 then some (strL "Invalid data")
      else decodeStringBody (strip0x s)) ∧
    decode_string (strL "0x" ++ List.replicate 128 '0') = some [] := by
  constructor
  · intro s
    rfl
  · decide

/-- C3 counterexample: `decode_address` panics (modelled `none`) on the
empty input and on `"0x1234"`, and `decode_string` panics past its length
guard on a 130-character input whose offset word is `0x40` — so not every
decode operation is total. -/
theorem claim_C3_counterexample :
    decode_address (strL "") = none ∧
    decode_address (strL "0x1234") = none ∧
    decode_string (List.replicate 61 '0' ++ ['4', '0'] ++ List.replicate 67 '0') = none := by
  refine ⟨by decide, by decide, by decide⟩

/-- C3 (amended): `decode_uint` and `decode_students_response` are total,
but `decode_address` panics exactly when the stripped input has fewer than
64 characters, and `decode_string` can panic even past its 130-character
guard (e.g. on 65 copies of `"0x"`, whose stripped form is empty). -/
theorem claim_C3_amended :
    (∀ s : List Char, decode_address s = none ↔ (strip0x s).length < 64) ∧
    (∀ s : List Char, decode_uint s = (fromStrRadix16U64 (strip0x s)).getD 0) ∧
    decode_string ((List.replicate 65 ['0', 'x']).flatten) = none := by
  refine ⟨?_, fun _ => rfl, by decide⟩
  intro s
  unfold decode_address rustSlice
  by_cases h : 64 ≤ (strip0x s).length
  · rw [if_pos ⟨by omega, h⟩]
    simp
    omega
  · rw [if_neg (by omega)]
    simp
    omega

/-- C7: rendering 0, 1 and `u64::MAX` in lowercase hex, left-zero-padding
to a 64-character word and applying `decode_uint` returns the original
value. -/
theorem claim_C7_uint_roundtrip :
    decode_uint (padLeftChar '0' 64 (natToHex 0)) = 0 ∧
    decode_uint (padLeftChar '0' 64 (natToHex 1)) = 1 ∧
    decode_uint (padLeftChar '0' 64 (natToHex (2 ^ 64 - 1))) = 2 ^ 64 - 1 := by
  refine ⟨by decide, by decide, by decide⟩

/-- C9: when the signature contains `"string"` but the argument list is too
short for the selected branch — fewer than 3 arguments with
`",uint256,uint256"`, an empty list otherwise — `encode_function_call`
panics on the `params[i]` index (modelled `none`). -/
theorem claim_C9_short_params_panic (sig : List Char) (params : List (List Char))
    (h1 : containsSubstr sig (strL "string") = true)
    (h2 : (containsSubstr sig (strL ",uint256,uint256") = true ∧ params.length < 3) ∨
          (containsSubstr sig (strL ",uint256,uint256") = false ∧ params = [])) :
    encode_function_call sig params = none := by
  unfold encode_function_call encodedParams
  rw [if_pos h1]
  rcases h2 with ⟨h2a, h2b⟩ | ⟨h2a, h2b⟩
  · rw [if_pos h2a]
    rcases params with _ | ⟨a, _ | ⟨b, _ | ⟨c, t⟩⟩⟩
    · rfl
    · rfl
    · rfl
    · simp only [List.length_cons] at h2b
      omega
  · rw [if_neg (by simp [h2a])]
    subst h2b
    rfl

theorem claim_C9_witness :
    containsSubstr (strL "f(string)") (strL "string") = true ∧
    containsSubstr (strL "f(string)") (strL ",uint256,uint256") = false ∧
    encode_function_call (strL "f(string)") [] = none :=
  ⟨by decide, by decide,
    claim_C9_short_params_panic _ _ (by decide) (Or.inr ⟨by decide, rfl⟩)⟩

/-- C10: every input whose stripped hex digits denote a value above
`u64::MAX` makes `decode_uint` return 0 (the overflow error is swallowed by
`unwrap_or(0)`). -/
theorem claim_C10_overflow_to_zero (s : List Char) (v : Nat)
    (hp : parseHexDigits (strip0x s) = some v) (hv : 2 ^ 64 ≤ v) :
    decode_uint s = 0 := by
  unfold decode_uint fromStrRadix16U64
  cases hs : strip0x s with
  | nil =>
    rw [hs] at hp
    simp [parseHexDigits] at hp
  | cons c rest =>
    rw [hs] at hp
    by_cases hc : c = '+'
    · subst hc
      rw [show parseHexDigits ('+' :: rest) = none from rfl] at hp
      simp at hp
    · rw [stripPlus_cons_of_ne _ hc, hp]
      show (if v < 2 ^ 64 then some v else none).getD 0 = 0
      rw [if_neg (by omega)]
      rfl

/-- C10 witness: the 32-byte word for `2 ^ 64` (a uint256 above `u64::MAX`)
decodes to 0, indistinguishable from the decoding of the genuine zero
word. -/
theorem claim_C10_witness :
    parseHexDigits (strip0x (List.replicate 47 '0' ++ '1' :: List.replicate 16 '0')) =
      some (2 ^ 64) ∧
    2 ^ 64 ≤ 2 ^ 64 ∧
    decode_uint (List.replicate 47 '0' ++ '1' :: List.replicate 16 '0') = 0 ∧
    decode_uint (List.replicate 64 '0') = 0 :=
  ⟨by decide, Nat.le_refl _,
    claim_C10_overflow_to_zero _ _ (by decide) (Nat.le_refl _), by decide⟩

/-- C4 counterexample: applying `decode_string` to the very bytes produced
by `encode_function_call` (selector included) does not return the original
string: for the repository's own `"getStudentCount(string)"` signature and
the argument `"a"` it returns the empty string, because the 8 selector
characters shift into the offset word, whose oversized value parses to 0. -/
theorem claim_C4_counterexample :
    (encode_function_call (strL "getStudentCount(string)") [strL "a"]).bind
        decode_string = some [] ∧
    ¬ (encode_function_call (strL "getStudentCount(string)") [strL "a"]).bind
        decode_string = some (strL "a") := by
  constructor <;> decide

/-- C4 (amended): the round trip holds once the selector is dropped: for
every string `s` whose UTF-8 byte length fits in a `usize` and every
signature selecting the single-dynamic-string branch, decoding `"0x"`
followed by the encoded parameter block returns `s`, both below and beyond
one word of content (the right padding never leaks). -/
theorem claim_C4_roundtrip_amended (sig s : List Char)
    (h1 : containsSubstr sig (strL "string") = true)
    (h2 : containsSubstr sig (strL ",uint256,uint256") = false)
    (h3 : (utf8Bytes s).length < 2 ^ 64) :
    ∃ ps, encodedParams sig [s] = some ps ∧
      decode_string (strL "0x" ++ ps) = some s := by
  refine ⟨padLeftChar '0' 64 (strL "20") ++
    padLeftChar '0' 64 (natToHex (utf8Bytes s).length) ++
    padRightToWord (hexEncodePairs (utf8Bytes s)), ?_, ?_⟩
  · unfold encodedParams
    rw [if_pos h1, if_neg (by simp [h2])]
  · have hw0 : (padLeftChar '0' 64 (strL "20")).length = 64 := by decide
    have hnat : (natToHex (utf8Bytes s).length).length ≤ 64 := by
      have := natToHex_length_le_sixteen _ h3
      omega
    have hwL : (padLeftChar '0' 64 (natToHex (utf8Bytes s).length)).length = 64 :=
      length_padLeftChar_of_le '0' hnat
    have hw0cons : padLeftChar '0' 64 (strL "20") =
        '0' :: '0' :: padLeftChar '0' 62 (strL "20") := by decide
    have hstrip : strip0x (padLeftChar '0' 64 (strL "20") ++
        padLeftChar '0' 64 (natToHex (utf8Bytes s).length) ++
        padRightToWord (hexEncodePairs (utf8Bytes s))) =
        padLeftChar '0' 64 (strL "20") ++
        padLeftChar '0' 64 (natToHex (utf8Bytes s).length) ++
        padRightToWord (hexEncodePairs (utf8Bytes s)) := by
      conv_lhs => rw [hw0cons]
      conv_rhs => rw [hw0cons]
      simp only [List.cons_append]
      rw [strip0x_cons_cons _ (by decide)]
    unfold decode_string
    rw [if_neg ?hlen]
    case hlen =>
      have hpre : (strL "0x").length = 2 := rfl
      simp only [List.length_append, hw0, hwL, hpre]
      omega
    rw [show strL "0x" ++ (padLeftChar '0' 64 (strL "20") ++
        padLeftChar '0' 64 (natToHex (utf8Bytes s).length) ++
        padRightToWord (hexEncodePairs (utf8Bytes s))) =
      '0' :: 'x' :: (padLeftChar '0' 64 (strL "20") ++
        padLeftChar '0' 64 (natToHex (utf8Bytes s).length) ++
        padRightToWord (hexEncodePairs (utf8Bytes s))) from rfl]
    rw [strip0x_0x, hstrip]
    exact decodeStringBody_roundtrip s h3

theorem claim_C4_roundtrip_witness :
    containsSubstr (strL "getStudentCount(string)") (strL "string") = true ∧
    containsSubstr (strL "getStudentCount(string)") (strL ",uint256,uint256") = false ∧
    (utf8Bytes (strL "Mathematics is more than one word long")).length < 2 ^ 64 ∧
    (∃ ps, encodedParams (strL "getStudentCount(string)")
        [strL "Mathematics is more than one word long"] = some ps ∧
      decode_string (strL "0x" ++ ps) =
        some (strL "Mathematics is more than one word long")) :=
  ⟨by decide, by decide, by decide,
    claim_C4_roundtrip_amended _ _ (by decide) (by decide) (by decide)⟩

/-- C6: when the signature does not contain `"string"`, the payload is the
selector followed by one region per argument in order: a `"0x"`-prefixed
argument contributes its remaining characters verbatim, any other argument
contributes itself left-zero-padded to 64 characters. -/
theorem claim_C6_static_args (sig : List Char) (params : List (List Char))
    (h : containsSubstr sig (strL "string") = false) :
    encode_function_call sig params =
      some (strL "0x" ++ selectorHex (utf8Bytes sig) ++
        (params.map (fun p => if (strL "0x").isPrefixOf p then p.drop 2
          else List.replicate (64 - p.length) '0' ++ p)).flatten) := by
  unfold encode_function_call encodedParams
  rw [if_neg (by simp [h])]
  rfl

theorem claim_C6_witness :
    containsSubstr (strL "balanceOf(address)") (strL "string") = false ∧
    encode_function_call (strL "balanceOf(address)") [strL "0xdeadbeef", strL "1"] =
      some (strL "0x" ++ selectorHex (utf8Bytes (strL "balanceOf(address)")) ++
        ([strL "0xdeadbeef", strL "1"].map
          (fun p => if (strL "0x").isPrefixOf p then p.drop 2
            else List.replicate (64 - p.length) '0' ++ p)).flatten) :=
  ⟨by decide, claim_C6_static_args _ _ (by decide)⟩

/-- C5: `encode_function_call("name()", [])` is exactly `"0x"` followed by
the 8 lowercase hex characters of the first 4 bytes of the Keccak-256 hash
of the UTF-8 bytes of `"name()"` — concretely `"0x06fdde03"` — with no
argument words after the selector. -/
theorem claim_C5_selector_only :
    encode_function_call (strL "name()") [] =
      some (strL "0x" ++
        hexEncodePairs ((keccak256 (utf8Bytes (strL "name()"))).take 4)) ∧
    encode_function_call (strL "name()") [] = some (strL "0x06fdde03") := by
  constructor
  · decide
  · decide

/-- C1 counterexample: in
`encode_function_call("getStudentsBySubject(string,uint256,uint256)",
["Mathematics","0","10"])` the third region after the selector — the limit
word, characters 138–202 of the output — is the literal `"10"` zero-padded,
which as a hex word denotes 16, not 10 as the claim's value reading
requires. -/
theorem claim_C1_counterexample :
    parseHexDigits ((((encode_function_call
        (strL "getStudentsBySubject(string,uint256,uint256)")
        [strL "Mathematics", strL "0", strL "10"]).getD []).drop 138).take 64) =
      some 16 ∧
    ¬ parseHexDigits ((((encode_function_call
        (strL "getStudentsBySubject(string,uint256,uint256)")
        [strL "Mathematics", strL "0", strL "10"]).getD []).drop 138).take 64) =
      some 10 := by
  constructor
  · decide
  · decide

/-- C1 (amended): the three-argument encoding is the selector followed by
exactly five regions in order — a head word equal to 0x60, an offset word
encoding 0, the limit argument `"10"` zero-padded (a word that encodes 0x10
= 16, not ten), a length word encoding 11, and the UTF-8 bytes of
`"Mathematics"` hex-encoded and right-padded to 64 characters. -/
theorem claim_C1_amended :
    encode_function_call (strL "getStudentsBySubject(string,uint256,uint256)")
        [strL "Mathematics", strL "0", strL "10"] =
      some (strL "0x114b5a55" ++
        strL "0000000000000000000000000000000000000000000000000000000000000060" ++
        strL "0000000000000000000000000000000000000000000000000000000000000000" ++
        strL "0000000000000000000000000000000000000000000000000000000000000010" ++
        strL "000000000000000000000000000000000000000000000000000000000000000b" ++
        strL "4d617468656d6174696373000000000000000000000000000000000000000000") ∧
    strL "114b5a55" =
      hexEncodePairs ((keccak256 (utf8Bytes
        (strL "getStudentsBySubject(string,uint256,uint256)"))).take 4) ∧
    parseHexDigits
      (strL "0000000000000000000000000000000000000000000000000000000000000060") =
      some 96 ∧
    parseHexDigits
      (strL "0000000000000000000000000000000000000000000000000000000000000000") =
      some 0 ∧
    parseHexDigits
      (strL "0000000000000000000000000000000000000000000000000000000000000010") =
      some 16 ∧
    parseHexDigits
      (strL "000000000000000000000000000000000000000000000000000000000000000b") =
      some 11 ∧
    hexDecodePairs (strL "4d617468656d6174696373") =
      some (utf8Bytes (strL "Mathematics")) := by
  refine ⟨by decide, by decide, by decide, by decide, by decide, by decide, by decide⟩

/-! ## Lemmas about the canonical ABI encoding -/

theorem length_wordBEAux : ∀ (k n : Nat), (wordBEAux k n).length = k := by
  intro k
  induction k with
  | zero => intro n; rfl
  | succ j ih =>
    intro n
    rw [wordBEAux]
    simp [ih]

theorem length_wordBE (n : Nat) : (wordBE n).length = 32 := length_wordBEAux 32 n

theorem wordBEAux_lt_256 : ∀ (k n : Nat), ∀ b ∈ wordBEAux k n, b < 256 := by
  intro k
  induction k with
  | zero => intro n b hb; simp [wordBEAux] at hb
  | succ j ih =>
    intro n b hb
    rw [wordBEAux] at hb
    rcases List.mem_append.mp hb with h | h
    · exact ih _ b h
    · simp at h
      omega

theorem wordBEAux_zero : ∀ k : Nat, wordBEAux k 0 = List.replicate k 0 := by
  intro k
  induction k with
  | zero => rfl
  | succ j ih =>
    rw [wordBEAux, ih]
    simp [List.replicate_succ']

theorem wordBEAux_split : ∀ (k j n : Nat),
    wordBEAux (j + k) n = wordBEAux j (n / 256 ^ k) ++ wordBEAux k n := by
  intro k
  induction k with
  | zero =>
    intro j n
    simp [wordBEAux]
  | succ m ih =>
    intro j n
    rw [show j + (m + 1) = (j + m) + 1 from rfl]
    rw [wordBEAux, ih j (n / 256)]
    rw [Nat.div_div_eq_div_mul]
    rw [show (256 : Nat) * 256 ^ m = 256 ^ (m + 1) from (pow_succ' 256 m).symm]
    rw [wordBEAux]
    rw [List.append_assoc]

theorem wordBE_eq_of_lt {n : Nat} (h : n < 2 ^ 32) :
    wordBE n = List.replicate 28 0 ++ wordBEAux 4 n := by
  unfold wordBE
  rw [show (32 : Nat) = 28 + 4 from rfl, wordBEAux_split]
  rw [show n / 256 ^ 4 = 0 from Nat.div_eq_of_lt (by
    rw [show (256 : Nat) ^ 4 = 2 ^ 32 from by norm_num]
    exact h)]
  rw [wordBEAux_zero]

theorem asUsize_wordBE {n : Nat} (h : n < 2 ^ 32) : asUsize (wordBE n) = some n := by
  rw [wordBE_eq_of_lt h]
  unfold asUsize
  have ht := take_prefix_all (List.replicate 28 (0 : Nat)) (wordBEAux 4 n)
  rw [List.length_replicate] at ht
  have hd := drop_prefix_all (List.replicate 28 (0 : Nat)) (wordBEAux 4 n)
  rw [List.length_replicate] at hd
  rw [ht, hd]
  rw [if_pos (by simp)]
  rw [show wordBEAux 4 n = [n / 256 / 256 / 256 % 256, n / 256 / 256 % 256,
    n / 256 % 256, n % 256] from rfl]
  simp only [List.foldl, Option.some.injEq]
  omega

theorem abiStringsTail_cons (b : List Nat) (t : List (List Nat)) :
    abiStringsTail (b :: t) = abiTailItem b ++ abiStringsTail t := rfl

theorem abiOffsetWords_cons (base : Nat) (b : List Nat) (t : List (List Nat)) :
    abiOffsetWords base (b :: t) =
      wordBE base ++ abiOffsetWords (base + (abiTailItem b).length) t := rfl

theorem length_abiOffsetWords : ∀ (L : List (List Nat)) (base : Nat),
    (abiOffsetWords base L).length = 32 * L.length := by
  intro L
  induction L with
  | nil => intro base; rfl
  | cons b t ih =>
    intro base
    rw [abiOffsetWords_cons]
    simp [length_wordBE, ih]
    omega

theorem length_padRightBytes_ge (bs : List Nat) :
    bs.length ≤ (padRightBytes bs).length := by
  simp [padRightBytes]

theorem length_abiTailItem (b : List Nat) :
    (abiTailItem b).length = 32 + (padRightBytes b).length := by
  simp [abiTailItem, length_wordBE]

/-- Walking the offset words of a well-formed `string[]` layout decodes the
remaining strings: `off` points at the next offset word and `base` at the
next tail entry, whose entries fill the rest of `T`. -/
theorem decodeStringsFrom_ok :
    ∀ (rem : List (List Char)) (T : List Nat) (off base : Nat) (junk : List Nat),
      T.length < 2 ^ 32 →
      T.drop off = abiOffsetWords base (rem.map utf8Bytes) ++ junk →
      T.drop base = abiStringsTail (rem.map utf8Bytes) →
      base + (abiStringsTail (rem.map utf8Bytes)).length = T.length →
      decodeStringsFrom rem.length T off = some rem := by
  intro rem
  induction rem with
  | nil => intro T off base junk _ _ _ _; rfl
  | cons s rem' ih =>
    intro T off base junk hT hOW hTL hlen
    simp only [List.map_cons] at hOW hTL hlen
    rw [abiOffsetWords_cons] at hOW
    rw [abiStringsTail_cons] at hTL hlen
    have hitem : (abiTailItem (utf8Bytes s)).length =
        32 + (padRightBytes (utf8Bytes s)).length := length_abiTailItem _
    have hpadge := length_padRightBytes_ge (utf8Bytes s)
    have hOWlen := congrArg List.length hOW
    simp only [List.length_append, List.length_drop, length_wordBE,
      length_abiOffsetWords] at hOWlen
    have hTLlen := congrArg List.length hTL
    simp only [List.length_append, List.length_drop, hitem] at hTLlen
    have hlen' := congrArg List.length (rfl :
      abiStringsTail (utf8Bytes s :: rem'.map utf8Bytes) =
      abiStringsTail (utf8Bytes s :: rem'.map utf8Bytes))
    simp only [List.length_append] at hlen
    have hbase32 : base < 2 ^ 32 := by omega
    have hBlt : (utf8Bytes s).length < 2 ^ 32 := by omega
    have hp1 : peek32 T off = some (wordBE base) := by
      unfold peek32
      rw [if_pos (by omega)]
      rw [hOW, List.append_assoc]
      have t := take_prefix_all (wordBE base)
        (abiOffsetWords (base + (abiTailItem (utf8Bytes s)).length)
          (List.map utf8Bytes rem') ++ junk)
      rw [length_wordBE] at t
      rw [t]
    have ha1 : asUsize (wordBE base) = some base := asUsize_wordBE hbase32
    have hp2 : peek32 T base = some (wordBE (utf8Bytes s).length) := by
      unfold peek32
      rw [if_pos (by omega)]
      rw [hTL]
      rw [show abiTailItem (utf8Bytes s) =
        wordBE (utf8Bytes s).length ++ padRightBytes (utf8Bytes s) from rfl]
      rw [List.append_assoc]
      have t := take_prefix_all (wordBE (utf8Bytes s).length)
        (padRightBytes (utf8Bytes s) ++ abiStringsTail (List.map utf8Bytes rem'))
      rw [length_wordBE] at t
      rw [t]
    have ha2 : asUsize (wordBE (utf8Bytes s).length) = some (utf8Bytes s).length :=
      asUsize_wordBE hBlt
    have htb : takeBytes T (base + 32) (utf8Bytes s).length = some (utf8Bytes s) := by
      unfold takeBytes
      rw [if_pos (by omega)]
      rw [show T.drop (base + 32) = (T.drop base).drop 32 from
        (List.drop_drop 32 base T).symm]
      rw [hTL]
      rw [show abiTailItem (utf8Bytes s) =
        wordBE (utf8Bytes s).length ++ padRightBytes (utf8Bytes s) from rfl]
      rw [List.append_assoc]
      have d := drop_prefix_all (wordBE (utf8Bytes s).length)
        (padRightBytes (utf8Bytes s) ++ abiStringsTail (List.map utf8Bytes rem'))
      rw [length_wordBE] at d
      rw [d]
      rw [show padRightBytes (utf8Bytes s) = utf8Bytes s ++
        List.replicate ((32 - (utf8Bytes s).length % 32) % 32) 0 from rfl]
      rw [List.append_assoc]
      exact congrArg some (take_prefix_all _ _)
    have hud : utf8Decode (utf8Bytes s) = some s := utf8Decode_utf8Bytes s
    have hrec : decodeStringsFrom rem'.length T (off + 32) = some rem' := by
      apply ih T (off + 32) (base + (abiTailItem (utf8Bytes s)).length) junk hT
      · rw [show T.drop (off + 32) = (T.drop off).drop 32 from
          (List.drop_drop 32 off T).symm]
        rw [hOW, List.append_assoc]
        have d := drop_prefix_all (wordBE base)
          (abiOffsetWords (base + (abiTailItem (utf8Bytes s)).length)
            (List.map utf8Bytes rem') ++ junk)
        rw [length_wordBE] at d
        rw [d]
      · rw [show T.drop (base + (abiTailItem (utf8Bytes s)).length) =
          (T.drop base).drop (abiTailItem (utf8Bytes s)).length from
          (List.drop_drop _ base T).symm]
        rw [hTL]
        exact drop_prefix_all _ _
      · omega
    simp only [List.length_cons, decodeStringsFrom, hp1, ha1, hp2, ha2, htb, hud, hrec,
      Option.map_some']

theorem padRightBytes_lt_256 (bs : List Nat) (h : ∀ b ∈ bs, b < 256) :
    ∀ b ∈ padRightBytes bs, b < 256 := by
  intro b hb
  rcases List.mem_append.mp hb with hm | hm
  · exact h b hm
  · have := List.eq_of_mem_replicate hm
    omega

theorem abiStringsTail_lt_256 : ∀ (M : List (List Nat)),
    (∀ bs ∈ M, ∀ b ∈ bs, b < 256) → ∀ b ∈ abiStringsTail M, b < 256 := by
  intro M
  induction M with
  | nil => intro _ b hb; simp [abiStringsTail] at hb
  | cons bs t ih =>
    intro hM b hb
    rw [abiStringsTail_cons] at hb
    rcases List.mem_append.mp hb with hm | hm
    · rcases List.mem_append.mp hm with hw | hp
      · exact wordBEAux_lt_256 _ _ b hw
      · exact padRightBytes_lt_256 bs (hM bs (List.mem_cons_self bs t)) b hp
    · exact ih (fun x hx => hM x (List.mem_cons_of_mem bs hx)) b hm

theorem abiOffsetWords_lt_256 : ∀ (M : List (List Nat)) (base : Nat),
    ∀ b ∈ abiOffsetWords base M, b < 256 := by
  intro M
  induction M with
  | nil => intro base b hb; simp [abiOffsetWords] at hb
  | cons bs t ih =>
    intro base b hb
    rw [abiOffsetWords_cons] at hb
    rcases List.mem_append.mp hb with hm | hm
    · exact wordBEAux_lt_256 _ _ b hm
    · exact ih _ b hm

theorem abiEncode_lt_256 (S : List (List Char)) :
    ∀ b ∈ abiEncodeStringArray (S.map utf8Bytes), b < 256 := by
  intro b hb
  unfold abiEncodeStringArray at hb
  simp only [List.append_assoc, List.mem_append] at hb
  rcases hb with h | h | h | h
  · exact wordBEAux_lt_256 _ _ b h
  · exact wordBEAux_lt_256 _ _ b h
  · exact abiOffsetWords_lt_256 _ _ b h
  · refine abiStringsTail_lt_256 _ ?_ b h
    intro bs hbs
    rcases List.mem_map.mp hbs with ⟨s, _, rfl⟩
    exact utf8Bytes_lt_256 s

/-- Decoding the canonical ABI encoding of any sequence of strings returns
exactly those strings in order (provided the encoding fits the 4-byte
offset words that `as_usize` accepts). -/
theorem abiDecode_abiEncode (S : List (List Char))
    (h : (abiEncodeStringArray (S.map utf8Bytes)).length < 2 ^ 32) :
    abiDecodeStringArray (abiEncodeStringArray (S.map utf8Bytes)) = some S := by
  unfold abiEncodeStringArray at h ⊢
  simp only [List.length_map] at h ⊢
  simp only [List.append_assoc] at h ⊢
  have hlenE : (wordBE 32 ++ (wordBE S.length ++
      (abiOffsetWords (32 * S.length) (List.map utf8Bytes S) ++
       abiStringsTail (List.map utf8Bytes S)))).length =
      32 + (32 + (32 * S.length + (abiStringsTail (List.map utf8Bytes S)).length)) := by
    simp only [List.length_append, length_wordBE, length_abiOffsetWords, List.length_map]
  have hn : S.length < 2 ^ 32 := by omega
  have hd32 : (wordBE 32 ++ (wordBE S.length ++
      (abiOffsetWords (32 * S.length) (List.map utf8Bytes S) ++
       abiStringsTail (List.map utf8Bytes S)))).drop 32 =
      wordBE S.length ++
      (abiOffsetWords (32 * S.length) (List.map utf8Bytes S) ++
       abiStringsTail (List.map utf8Bytes S)) := by
    have d := drop_prefix_all (wordBE 32)
      (wordBE S.length ++ (abiOffsetWords (32 * S.length) (List.map utf8Bytes S) ++
        abiStringsTail (List.map utf8Bytes S)))
    rw [length_wordBE] at d
    exact d
  have hp0 : peek32 (wordBE 32 ++ (wordBE S.length ++
      (abiOffsetWords (32 * S.length) (List.map utf8Bytes S) ++
       abiStringsTail (List.map utf8Bytes S)))) 0 = some (wordBE 32) := by
    unfold peek32
    rw [if_pos (by omega)]
    rw [List.drop_zero]
    have t := take_prefix_all (wordBE 32)
      (wordBE S.length ++ (abiOffsetWords (32 * S.length) (List.map utf8Bytes S) ++
        abiStringsTail (List.map utf8Bytes S)))
    rw [length_wordBE] at t
    rw [t]
  have ha0 : asUsize (wordBE 32) = some 32 := asUsize_wordBE (by norm_num)
  have hp32 : peek32 (wordBE 32 ++ (wordBE S.length ++
      (abiOffsetWords (32 * S.length) (List.map utf8Bytes S) ++
       abiStringsTail (List.map utf8Bytes S)))) 32 = some (wordBE S.length) := by
    unfold peek32
    rw [if_pos (by omega)]
    rw [hd32]
    have t := take_prefix_all (wordBE S.length)
      (abiOffsetWords (32 * S.length) (List.map utf8Bytes S) ++
        abiStringsTail (List.map utf8Bytes S))
    rw [length_wordBE] at t
    rw [t]
  have ha32 : asUsize (wordBE S.length) = some S.length := asUsize_wordBE hn
  have hd64 : (wordBE 32 ++ (wordBE S.length ++
      (abiOffsetWords (32 * S.length) (List.map utf8Bytes S) ++
       abiStringsTail (List.map utf8Bytes S)))).drop (32 + 32) =
      abiOffsetWords (32 * S.length) (List.map utf8Bytes S) ++
      abiStringsTail (List.map utf8Bytes S) := by
    rw [← List.drop_drop, hd32]
    have d := drop_prefix_all (wordBE S.length)
      (abiOffsetWords (32 * S.length) (List.map utf8Bytes S) ++
        abiStringsTail (List.map utf8Bytes S))
    rw [length_wordBE] at d
    exact d
  have hdsf : decodeStringsFrom S.length ((wordBE 32 ++ (wordBE S.length ++
      (abiOffsetWords (32 * S.length) (List.map utf8Bytes S) ++
       abiStringsTail (List.map utf8Bytes S)))).drop (32 + 32)) 0 = some S := by
    rw [hd64]
    apply decodeStringsFrom_ok S _ 0 (32 * S.length)
      (abiStringsTail (List.map utf8Bytes S))
    · simp only [List.length_append, length_abiOffsetWords, List.length_map]
      omega
    · rw [List.drop_zero]
    · have d := drop_prefix_all (abiOffsetWords (32 * S.length) (List.map utf8Bytes S))
        (abiStringsTail (List.map utf8Bytes S))
      rw [length_abiOffsetWords, List.length_map] at d
      exact d
    · simp only [List.length_append, length_abiOffsetWords, List.length_map]
  simp only [abiDecodeStringArray, hp0, ha0, hp32, ha32, hdsf]

/-- `decode_students_response` on the hex rendering of a canonical
`string[]` encoding returns the encoded strings in order. -/
theorem decode_students_response_encode (S : List (List Char))
    (h : (abiEncodeStringArray (S.map utf8Bytes)).length < 2 ^ 32) :
    decode_students_response
      (strL "0x" ++ hexEncodePairs (abiEncodeStringArray (S.map utf8Bytes))) =
      Except.ok S := by
  unfold decode_students_response
  rw [if_pos (show (strL "0x").isPrefixOf
    (strL "0x" ++ hexEncodePairs (abiEncodeStringArray (S.map utf8Bytes))) = true
    from rfl)]
  rw [show (strL "0x" ++ hexEncodePairs (abiEncodeStringArray (S.map utf8Bytes))).drop 2 =
    hexEncodePairs (abiEncodeStringArray (S.map utf8Bytes)) from rfl]
  simp only [hexDecode_hexEncode _ (abiEncode_lt_256 S), abiDecode_abiEncode S h]

/-- C8: `decode_students_response` applied to a well-formed ABI encoding of
a `string[]` returns exactly the encoded strings in their original order
(the empty array decodes to the empty sequence), and applied to
nonconforming input — malformed hex, an offset out of bounds, or non-UTF-8
content — it fails with a structured error instead of a sentinel value. -/
theorem claim_C8_string_array :
    (∀ S : List (List Char),
      (abiEncodeStringArray (S.map utf8Bytes)).length < 2 ^ 32 →
      decode_students_response
        (strL "0x" ++ hexEncodePairs (abiEncodeStringArray (S.map utf8Bytes))) =
        Except.ok S) ∧
    decode_students_response (strL "0xzz") =
      Except.error StudentsDecodeError.hexError ∧
    decode_students_response (strL "0x" ++ padLeftChar '0' 64 (natToHex 32) ++
        padLeftChar '0' 64 (natToHex 1) ++ padLeftChar '0' 64 (natToHex 65536)) =
      Except.error StudentsDecodeError.abiError ∧
    decode_students_response (strL "0x" ++ padLeftChar '0' 64 (natToHex 32) ++
        padLeftChar '0' 64 (natToHex 1) ++ padLeftChar '0' 64 (natToHex 32) ++
        padLeftChar '0' 64 (natToHex 1) ++ padRightToWord (strL "ff")) =
      Except.error StudentsDecodeError.abiError :=
  ⟨decode_students_response_encode, rfl, rfl, rfl⟩

/-- C8 witness: the encoding of `["a", "bb", "ccc"]` decodes to that
sequence and the encoding of the empty array decodes to the empty
sequence. -/
theorem claim_C8_witness :
    (abiEncodeStringArray ([strL "a", strL "bb", strL "ccc"].map utf8Bytes)).length <
      2 ^ 32 ∧
    decode_students_response (strL "0x" ++ hexEncodePairs
        (abiEncodeStringArray ([strL "a", strL "bb", strL "ccc"].map utf8Bytes))) =
      Except.ok [strL "a", strL "bb", strL "ccc"] ∧
    (abiEncodeStringArray (([] : List (List Char)).map utf8Bytes)).length < 2 ^ 32 ∧
    decode_students_response (strL "0x" ++ hexEncodePairs
        (abiEncodeStringArray (([] : List (List Char)).map utf8Bytes))) =
      Except.ok ([] : List (List Char)) :=
  ⟨by decide, claim_C8_string_array.1 [strL "a", strL "bb", strL "ccc"] (by decide),
    by decide, claim_C8_string_array.1 [] (by decide)⟩
